import Mathlib

/-!
Verification of the MIDI song database generator (`python.py`).

The program is a one-shot batch transform: it lists the `midi` directory,
infers `{title, artist}` for each `.mid`/`.midi` filename with a chain of
hardcoded substring rules, derives a slug id, assembles song records and
writes a JSON catalog.  We embed the string-level logic shallowly over
`List Char` / `String`:

* `str.replace(old, new)` (all occurrences, one left-to-right pass, no
  rescan of emitted output) is `replaceAllL`;
* `sub in s` / `s.split(sep, 1)` is `splitFirstAux`;
* `s.strip()` / `s.strip('-')` is `stripBoth`;
* `s.lower()` is `lowerL` (ASCII case map, which is what Python's
  `str.lower` does on the ASCII filenames in scope);
* `re.sub(r'[^a-z0-9]', '-', s)` is `List.map hyMap`;
* `re.sub(r'-+', '-', s)` is `collapseHyphens`.

Directory enumeration and file writing are modelled by passing the
directory listing in as `Option (List String)` (`none` = directory absent)
and returning the would-be written catalog as an `Option Catalog`
(`none` = nothing written).
-/

/-- Does the list `s` start with the list `p`? (Python `s.startswith(p)`.) -/
def listStartsWith : List Char → List Char → Bool
  | _, [] => true
  | [], _ :: _ => false
  | c :: s, p :: ps => c == p && listStartsWith s ps

/-- Does `p` occur as a contiguous sublist of `s`? (Python `p in s`.) -/
def containsSub : List Char → List Char → Bool
  | [], p => p.isEmpty
  | c :: rest, p => listStartsWith (c :: rest) p || containsSub rest p

/-- Fueled worker for Python `str.replace(old, new)`: one left-to-right pass
replacing non-overlapping occurrences, never rescanning emitted output.
`fuel` bounds the recursion; with `fuel ≥ s.length` (and `old ≠ []`) the
`0` fallback case is unreachable. -/
def replaceAllAux (old new : List Char) : Nat → List Char → List Char
  | _, [] => []
  | 0, s => s
  | fuel + 1, c :: rest =>
    if listStartsWith (c :: rest) old then
      new ++ replaceAllAux old new fuel (rest.drop (old.length - 1))
    else
      c :: replaceAllAux old new fuel rest

/-- Python `s.replace(old, new)` for nonempty `old`. -/
def replaceAllL (old new s : List Char) : List Char :=
  replaceAllAux old new s.length s

/-- Split at the first occurrence of `sep` (nonempty): Python
`s.split(sep, 1)` returning `(before, after)`, and `none` when `sep`
does not occur (so `isSome` is Python's `sep in s`). -/
def splitFirstAux (sep : List Char) : List Char → Option (List Char × List Char)
  | [] => none
  | c :: rest =>
    if listStartsWith (c :: rest) sep then
      some ([], rest.drop (sep.length - 1))
    else
      match splitFirstAux sep rest with
      | some (pre, post) => some (c :: pre, post)
      | none => none

/-- Drop the maximal run of characters satisfying `p` from the end. -/
def dropTrailing (p : Char → Bool) : List Char → List Char
  | [] => []
  | c :: rest =>
    let r := dropTrailing p rest
    if r.isEmpty then (if p c then [] else [c]) else c :: r

/-- Python `s.strip(chars)`: trim characters satisfying `p` from both ends. -/
def stripBoth (p : Char → Bool) (s : List Char) : List Char :=
  dropTrailing p (s.dropWhile p)

/-- ASCII whitespace recognised by Python `str.strip()` (Python also strips
non-ASCII Unicode whitespace; filenames in scope are ASCII). -/
def isPySpace (c : Char) : Bool :=
  c == ' ' || c == '\t' || c == '\n' || c == '\r' || c == '\x0b' || c == '\x0c'

/-- Python `s.strip()`. -/
def pyStrip (s : List Char) : List Char := stripBoth isPySpace s

/-- Python `s.strip('-')`. -/
def stripHy (s : List Char) : List Char := stripBoth (fun c => c == '-') s

/-- Python `s.lower()` (ASCII case map `Char.toLower`). -/
def lowerL (s : List Char) : List Char := s.map Char.toLower

/-- Character class `[a-z0-9]`. -/
def isLowerAlnum (c : Char) : Bool :=
  ('a' ≤ c && c ≤ 'z') || ('0' ≤ c && c ≤ '9')

/-- One character of `re.sub(r'[^a-z0-9]', '-', s)`. -/
def hyMap (c : Char) : Char := if isLowerAlnum c then c else '-'

/-- Python `re.sub(r'-+', '-', s)`: collapse each run of hyphens to one. -/
def collapseHyphens : List Char → List Char
  | [] => []
  | [c] => [c]
  | a :: b :: t =>
    if a == '-' && b == '-' then collapseHyphens (b :: t)
    else a :: collapseHyphens (b :: t)

/-- Split a character list on every `'-'` (like `s.split('-')`): always a
nonempty list of hyphen-free groups, with empty groups marking leading,
trailing or doubled hyphens. -/
def splitHyphen : List Char → List (List Char)
  | [] => [[]]
  | c :: rest =>
    if c == '-' then [] :: splitHyphen rest
    else
      match splitHyphen rest with
      | [] => [[c]]
      | p :: ps => (c :: p) :: ps

/-- No two adjacent hyphens (used to state slug well-formedness). -/
def noDD : List Char → Bool
  | [] => true
  | [_] => true
  | a :: b :: t => !(a == '-' && b == '-') && noDD (b :: t)

/-- Python `s.endswith(p)`. -/
def strEndsWith (s p : String) : Bool :=
  listStartsWith s.data.reverse p.data.reverse

/-- Matcher for the regular expression `^[a-z0-9]+(-[a-z0-9]+)*-midi$`:
equivalently, splitting the string on `'-'` yields at least two groups,
every group is nonempty and all-`[a-z0-9]`, and the last group is `midi`. -/
def matchesIdRegex (s : String) : Bool :=
  let ps := splitHyphen s.data
  decide (2 ≤ ps.length) &&
    ps.all (fun p => !p.isEmpty && p.all isLowerAlnum) &&
    decide (ps.getLast? = some "midi".data)

/-- Line 16 of `python.py`:
`name = filename.replace('.mid', '').replace('.midi', '')`. -/
def nameOfL (f : List Char) : List Char :=
  replaceAllL ".midi".data [] (replaceAllL ".mid".data [] f)

/-- Result record of `extract_song_info_from_filename` (lines 108-113). -/
structure SongInfo where
  title : String
  artist : String
  difficulties : List String
  overallDifficulty : Nat
deriving DecidableEq

/-- Lines 19-32 of `python.py`: default `(title, artist)` and the attempted
split on the first `" - "`, else the first `" -"`. -/
def splitStage (name : List Char) : List Char × List Char :=
  match splitFirstAux " - ".data name with
  | some (a, t) => (pyStrip t, pyStrip a)
  | none =>
    match splitFirstAux " -".data name with
    | some (a, t) => (pyStrip t, pyStrip a)
    | none => (name, "Unknown".data)

/-- Lines 35-106 of `python.py`: the ordered keyword-override chain, applied
to the lowercased extension-stripped name `l`; `title`/`artist` are the
values from the split stage, kept when no rule (or no sub-rule) assigns. -/
def applyRules (l title artist : List Char) : List Char × List Char :=
  if containsSub l "twinkle".data then
    ("Twinkle Twinkle Little Star".data, "Traditional".data)
  else if containsSub l "beethoven".data || containsSub l "moonlight".data then
    ("Moonlight Sonata".data, "Beethoven".data)
  else if containsSub l "debussy".data || containsSub l "clair".data then
    ("Clair de Lune".data, "Debussy".data)
  else if containsSub l "metallica".data then
    ((if containsSub l "master".data then "Master of Puppets".data
      else if containsSub l "nothing".data then "Nothing Else Matters".data
      else title), "Metallica".data)
  else if containsSub l "michael jackson".data || containsSub l "billie jean".data then
    ("Billie Jean".data, "Michael Jackson".data)
  else if containsSub l "nirvana".data || containsSub l "smells".data then
    ("Smells Like Teen Spirit".data, "Nirvana".data)
  else if containsSub l "owl city".data || containsSub l "fireflies".data then
    ("Fireflies".data, "Owl City".data)
  else if containsSub l "pokemon".data then
    ("Wild Pokemon Battle".data, "Pokemon".data)
  else if containsSub l "smash".data && containsSub l "mouth".data then
    ("All Star".data, "Smash Mouth".data)
  else if containsSub l "final countdown".data then
    ("The Final Countdown".data, "Europe".data)
  else if containsSub l "toto".data || containsSub l "africa".data then
    ("Africa".data, "Toto".data)
  else if containsSub l "wii".data && containsSub l "theme".data then
    ("Wii Theme".data, "Nintendo".data)
  else if containsSub l "mii channel".data then
    ("Mii Channel".data, "Nintendo".data)
  else if containsSub l "super smash".data then
    ("Super Smash Bros Brawl - Main Theme".data, "Nintendo".data)
  else if containsSub l "mountain king".data then
    ("In the Hall of the Mountain King".data, "Grieg".data)
  else if containsSub l "titanic".data || containsSub l "heart".data then
    ("My Heart Will Go On".data, "Celine Dion".data)
  else if containsSub l "backstreet".data then
    ("I Want It That Way".data, "Backstreet Boys".data)
  else if containsSub l "dooms-gate".data then
    ("Doom\x27s Gate".data, "Doom".data)
  else if containsSub l "spearsofjustice".data then
    ("Spear of Justice".data, "Undertale".data)
  else if containsSub l "test-drive".data then
    ("Test Drive".data, "Test".data)
  else if containsSub l "desert".data || containsSub l "canyon".data then
    ("Desert Canyon".data, "Traditional".data)
  else if containsSub l "beach".data && containsSub l "town".data then
    ((if containsSub l "violin".data then "Beach Town Violin".data
      else if containsSub l "flute".data then "Beach Town Flute".data
      else title), "Traditional".data)
  else (title, artist)

/-- Disjunction of the conditions of keyword rules 1-21, i.e. every rule
strictly before the final `'beach' and 'town'` rule, exactly as these
conditions appear in `applyRules`. -/
def earlierRuleHit (l : List Char) : Bool :=
  containsSub l "twinkle".data ||
  (containsSub l "beethoven".data || containsSub l "moonlight".data) ||
  (containsSub l "debussy".data || containsSub l "clair".data) ||
  containsSub l "metallica".data ||
  (containsSub l "michael jackson".data || containsSub l "billie jean".data) ||
  (containsSub l "nirvana".data || containsSub l "smells".data) ||
  (containsSub l "owl city".data || containsSub l "fireflies".data) ||
  containsSub l "pokemon".data ||
  (containsSub l "smash".data && containsSub l "mouth".data) ||
  containsSub l "final countdown".data ||
  (containsSub l "toto".data || containsSub l "africa".data) ||
  (containsSub l "wii".data && containsSub l "theme".data) ||
  containsSub l "mii channel".data ||
  containsSub l "super smash".data ||
  containsSub l "mountain king".data ||
  (containsSub l "titanic".data || containsSub l "heart".data) ||
  containsSub l "backstreet".data ||
  containsSub l "dooms-gate".data ||
  containsSub l "spearsofjustice".data ||
  containsSub l "test-drive".data ||
  (containsSub l "desert".data || containsSub l "canyon".data)

/-- Lines 13-113 of `python.py`: `extract_song_info_from_filename`. -/
def extract_song_info_from_filename (filename : String) : SongInfo :=
  let name := nameOfL filename.data
  let p := splitStage name
  let r := applyRules (lowerL name) p.1 p.2
  { title := ⟨r.1⟩, artist := ⟨r.2⟩, difficulties := ["easy"], overallDifficulty := 5 }

/-- Lines 134-136 of `python.py`: the slug before the `-midi` suffix
(`.mid`/`.midi` replacement, lowercase, `[^a-z0-9]` to `-`, collapse `-+`,
strip `-`). -/
def slugOfL (f : List Char) : List Char :=
  stripHy (collapseHyphens ((lowerL (nameOfL f)).map hyMap))

/-- The full song id of line 140: slug plus literal `-midi`. -/
def songIdL (f : List Char) : List Char := slugOfL f ++ "-midi".data

/-- One emitted song object (lines 139-158 of `python.py`); the three
singleton `easy`-keyed maps are flattened to one field each. -/
structure SongRecord where
  id : String
  title : String
  artist : String
  duration : String
  difficulties : List String
  bpm : Nat
  format : String
  overallDifficulty : Nat
  soundFont : String
  midiFilesEasy : String
  audioFilesEasy : String
  notesEasy : List Unit
deriving DecidableEq

/-- Lines 127-164 of `python.py`: the record built for one filename,
including the keyword-conditional `soundFont` overwrite of lines 161-162
(which assigns the same URL as the default of line 148). -/
def mkSong (filename : String) : SongRecord :=
  let info := extract_song_info_from_filename filename
  let sid : String := ⟨slugOfL filename.data⟩
  let song : SongRecord :=
    { id := sid ++ "-midi"
      title := info.title
      artist := info.artist
      duration := "0:30"
      difficulties := info.difficulties
      bpm := 120
      format := "midi"
      overallDifficulty := info.overallDifficulty
      soundFont := "https://porter-smith.github.io/rhythm-master-files/soundfonts/gzdoom.sf2"
      midiFilesEasy := "https://porter-smith.github.io/rhythm-master-files/midi/" ++ filename
      audioFilesEasy := "/audio/" ++ sid ++ "-easy.mp3"
      notesEasy := [] }
  if ["doom", "spearsofjustice", "beach", "desert"].any
      (fun k => containsSub (lowerL filename.data) k.data) then
    { song with
      soundFont := "https://porter-smith.github.io/rhythm-master-files/soundfonts/gzdoom.sf2" }
  else song

/-- Lines 115-166 of `python.py`: `generate_midi_songs_json`, with the
filesystem abstracted to the glob listing: `none` models the `midi`
directory being absent (the function prints and returns `None`), and
`some files` the matched filenames in glob order. -/
def generate_midi_songs_json (listing : Option (List String)) :
    Option (List SongRecord) :=
  match listing with
  | none => none
  | some files => some (files.map mkSong)

/-- The written JSON object of lines 180-183. -/
structure Catalog where
  midiSongs : List SongRecord
  allSongs : List SongRecord
deriving DecidableEq

/-- Lines 168-190 of `python.py`: `main`, returning the catalog that is
written to `midi_songs_database.json`, or `none` when the run returns
early without writing (absent directory making `generate_midi_songs_json`
return `None`, or an empty song list: both are falsy in `if not midi_songs`). -/
def mainOutput (listing : Option (List String)) : Option Catalog :=
  match generate_midi_songs_json listing with
  | none => none
  | some songs => if songs.isEmpty then none else some ⟨songs, songs⟩


/-- Mapping a function over both lists preserves the startsWith relation. -/
theorem lsw_map (g : Char → Char) :
    ∀ s p : List Char, listStartsWith s p = true →
      listStartsWith (s.map g) (p.map g) = true := by
  intro s
  induction s with
  | nil =>
    intro p h
    cases p with
    | nil => simp [listStartsWith]
    | cons x xs => simp [listStartsWith] at h
  | cons c s ih =>
    intro p h
    cases p with
    | nil => simp [listStartsWith]
    | cons x xs =>
      simp only [listStartsWith, Bool.and_eq_true, beq_iff_eq] at h ⊢
      exact ⟨by rw [h.1], ih xs h.2⟩

/-- If `u` starts with `o` and no character of `o` can be the head of `pat`,
an occurrence of `pat` in `u` survives dropping that lead of `u`. -/
theorem containsSub_drop (pat : List Char) (hpat : pat ≠ []) :
    ∀ o u : List Char, (∀ x ∈ o, pat.head? ≠ some x) →
      listStartsWith u o = true → containsSub u pat = true →
      containsSub (u.drop o.length) pat = true := by
  intro o
  induction o with
  | nil =>
    intro u _ _ h
    simpa using h
  | cons x ot ih =>
    intro u ho hsw hc
    cases u with
    | nil => simp [listStartsWith] at hsw
    | cons a ur =>
      simp only [listStartsWith, Bool.and_eq_true, beq_iff_eq] at hsw
      simp only [containsSub, Bool.or_eq_true] at hc
      rcases hc with hc | hc
      · cases pat with
        | nil => exact absurd rfl hpat
        | cons p pt =>
          simp only [listStartsWith, Bool.and_eq_true, beq_iff_eq] at hc
          have : (p :: pt).head? = some x := by
            rw [List.head?_cons, ← hc.1, hsw.1]
          exact absurd this (ho x (List.mem_cons_self x ot))
      · have h' := ih ur (fun y hy => ho y (List.mem_cons_of_mem _ hy)) hsw.2 hc
        simpa [List.drop_succ_cons] using h'

/-- Prefix preservation: a prefix `q` of the lowercasing of `s` that avoids
the (lowercased) head of `old` is still a prefix after the `replace` pass
deleting occurrences of `old`. -/
theorem lsw_lower_replace (old : List Char) (hold : old ≠ []) :
    ∀ (fuel : Nat) (s q : List Char), s.length ≤ fuel →
      (∀ x ∈ q, (lowerL old).head? ≠ some x) →
      listStartsWith (lowerL s) q = true →
      listStartsWith (lowerL (replaceAllAux old [] fuel s)) q = true := by
  intro fuel
  induction fuel with
  | zero =>
    intro s q hlen hq hsw
    cases s with
    | nil => simpa [replaceAllAux] using hsw
    | cons c rest => simp at hlen
  | succ fuel ih =>
    intro s q hlen hq hsw
    cases s with
    | nil => simpa [replaceAllAux] using hsw
    | cons c rest =>
      by_cases hm : listStartsWith (c :: rest) old = true
      · simp only [replaceAllAux, hm, if_true, List.nil_append]
        cases q with
        | nil => simp [listStartsWith]
        | cons x qt =>
          cases old with
          | nil => exact absurd rfl hold
          | cons o ot =>
            simp only [listStartsWith, Bool.and_eq_true, beq_iff_eq] at hm
            simp only [lowerL, List.map_cons, listStartsWith, Bool.and_eq_true,
              beq_iff_eq] at hsw
            have : (lowerL (o :: ot)).head? = some x := by
              simp [lowerL, ← hsw.1, hm.1]
            exact absurd this (hq x (List.mem_cons_self x qt))
      · simp only [replaceAllAux, hm, if_false, Bool.false_eq_true]
        cases q with
        | nil => simp [listStartsWith]
        | cons x qt =>
          simp only [lowerL, List.map_cons, listStartsWith, Bool.and_eq_true,
            beq_iff_eq] at hsw ⊢
          refine ⟨hsw.1, ?_⟩
          have := ih rest qt (by simpa using Nat.le_of_succ_le_succ (by simpa using hlen))
            (fun y hy => hq y (List.mem_cons_of_mem _ hy)) hsw.2
          simpa [lowerL] using this

/-- Containment preservation: an occurrence of `pat` in the lowercasing of
`s` survives the `replace` pass deleting occurrences of `old`, provided the
head of `pat` is not a (lowercased) character of `old` and the (lowercased)
head of `old` is not a character of `pat`. -/
theorem containsSub_lower_replace (old pat : List Char) (hold : old ≠ [])
    (hpat : pat ≠ [])
    (hho : ∀ x ∈ lowerL old, pat.head? ≠ some x)
    (hdot : ∀ x ∈ pat, (lowerL old).head? ≠ some x) :
    ∀ (fuel : Nat) (s : List Char), s.length ≤ fuel →
      containsSub (lowerL s) pat = true →
      containsSub (lowerL (replaceAllAux old [] fuel s)) pat = true := by
  intro fuel
  induction fuel with
  | zero =>
    intro s hlen hc
    cases s with
    | nil => simpa [replaceAllAux] using hc
    | cons c rest => simp at hlen
  | succ fuel ih =>
    intro s hlen hc
    cases s with
    | nil => simpa [replaceAllAux] using hc
    | cons c rest =>
      by_cases hm : listStartsWith (c :: rest) old = true
      · simp only [replaceAllAux, hm, if_true, List.nil_append]
        have hsw : listStartsWith (lowerL (c :: rest)) (lowerL old) = true :=
          lsw_map Char.toLower _ _ hm
        have hdrop := containsSub_drop pat hpat (lowerL old) (lowerL (c :: rest))
          hho hsw hc
        cases old with
        | nil => exact absurd rfl hold
        | cons o ot =>
          have hlow : (lowerL (c :: rest)).drop (lowerL (o :: ot)).length =
              lowerL (rest.drop ((o :: ot).length - 1)) := by
            simp [lowerL, ← List.map_drop, List.drop_succ_cons]
          rw [hlow] at hdrop
          have hlen' : (rest.drop ((o :: ot).length - 1)).length ≤ fuel := by
            have h1 : rest.length ≤ fuel := by
              simpa using Nat.le_of_succ_le_succ (by simpa using hlen)
            calc (rest.drop ((o :: ot).length - 1)).length
                ≤ rest.length := by simp [List.length_drop]
              _ ≤ fuel := h1
          exact ih _ hlen' hdrop
      · simp only [replaceAllAux, hm, if_false, Bool.false_eq_true]
        simp only [lowerL, List.map_cons, containsSub, Bool.or_eq_true] at hc ⊢
        rcases hc with hc | hc
        · cases pat with
          | nil => exact absurd rfl hpat
          | cons p pt =>
            left
            simp only [listStartsWith, Bool.and_eq_true, beq_iff_eq] at hc ⊢
            refine ⟨hc.1, ?_⟩
            have := lsw_lower_replace old hold fuel rest pt
              (by simpa using Nat.le_of_succ_le_succ (by simpa using hlen))
              (fun y hy => hdot y (List.mem_cons_of_mem _ hy)) hc.2
            simpa [lowerL] using this
        · right
          have := ih rest (by simpa using Nat.le_of_succ_le_succ (by simpa using hlen)) hc
          simpa [lowerL] using this

/-- Containment in the lowercased filename transfers to the lowercased
extension-stripped name, for patterns not sharing alignable characters with
`.mid`/`.midi` (head of the pattern not one of `.`,`m`,`i`,`d` and `.` not
in the pattern). -/
theorem containsSub_lower_nameOf (pat : List Char) (hpat : pat ≠ [])
    (h1 : ∀ x ∈ lowerL ".mid".data, pat.head? ≠ some x)
    (h2 : ∀ x ∈ pat, (lowerL ".mid".data).head? ≠ some x)
    (h3 : ∀ x ∈ lowerL ".midi".data, pat.head? ≠ some x)
    (h4 : ∀ x ∈ pat, (lowerL ".midi".data).head? ≠ some x)
    (f : List Char) (hc : containsSub (lowerL f) pat = true) :
    containsSub (lowerL (nameOfL f)) pat = true := by
  unfold nameOfL replaceAllL
  exact containsSub_lower_replace _ pat (by decide) hpat h3 h4 _ _ le_rfl
    (containsSub_lower_replace _ pat (by decide) hpat h1 h2 _ _ le_rfl hc)

/-- The first keyword rule wins: if the lowercased name contains `twinkle`,
`applyRules` returns the twinkle assignment regardless of anything else. -/
theorem applyRules_twinkle (l t a : List Char)
    (h : containsSub l "twinkle".data = true) :
    applyRules l t a = ("Twinkle Twinkle Little Star".data, "Traditional".data) := by
  simp [applyRules, h]

/-- `splitHyphen` always yields at least one group. -/
theorem sp_ne_nil : ∀ s : List Char, splitHyphen s ≠ [] := by
  intro s
  cases s with
  | nil => simp [splitHyphen]
  | cons c rest =>
    simp only [splitHyphen]
    split
    · simp
    · split
      · simp
      · simp

/-- Splitting distributes over a hyphen in the middle. -/
theorem sp_append : ∀ a b : List Char,
    splitHyphen (a ++ '-' :: b) = splitHyphen a ++ splitHyphen b := by
  intro a
  induction a with
  | nil =>
    intro b
    simp [splitHyphen]
  | cons c a' ih =>
    intro b
    cases hc : (c == '-') with
    | true =>
      simp [splitHyphen, hc, ih]
    | false =>
      obtain ⟨p, ps, hps⟩ := List.exists_cons_of_ne_nil (sp_ne_nil a')
      simp [splitHyphen, hc, ih, hps]

/-- Every group produced by `splitHyphen` from a string over the alphabet
`[a-z0-9-]` is all-`[a-z0-9]` (the hyphens are the separators). -/
theorem parts_alnum : ∀ w : List Char,
    w.all (fun c => isLowerAlnum c || c == '-') = true →
    ∀ p ∈ splitHyphen w, p.all isLowerAlnum = true := by
  intro w
  induction w with
  | nil =>
    intro _ p hp
    simp only [splitHyphen, List.mem_singleton] at hp
    subst hp
    rfl
  | cons c rest ih =>
    intro hall p hp
    simp only [List.all_cons, Bool.and_eq_true] at hall
    cases hc : (c == '-') with
    | true =>
      simp only [splitHyphen, hc, if_true, List.mem_cons] at hp
      rcases hp with rfl | hp
      · rfl
      · exact ih hall.2 p hp
    | false =>
      obtain ⟨q, qs, hqs⟩ := List.exists_cons_of_ne_nil (sp_ne_nil rest)
      have hcal : isLowerAlnum c = true := by
        have := hall.1
        simpa [hc] using this
      simp only [splitHyphen, hc, Bool.false_eq_true, if_false, hqs,
        List.mem_cons] at hp
      rcases hp with rfl | hp
      · have hq : (q :: qs).all (fun x => x.all isLowerAlnum) = true := by
          rw [List.all_eq_true]
          intro x hx
          exact ih hall.2 x (hqs ▸ hx)
        simp only [List.all_cons, Bool.and_eq_true] at hq
        simp [List.all_cons, hcal, hq.1]
      · have := ih hall.2 p (by rw [hqs]; exact List.mem_cons_of_mem _ hp)
        exact this

/-- The tail of a no-double-hyphen list has no double hyphen. -/
theorem noDD_tail : ∀ (x : Char) (l : List Char),
    noDD (x :: l) = true → noDD l = true := by
  intro x l h
  cases l with
  | nil => rfl
  | cons b t =>
    simp only [noDD, Bool.and_eq_true] at h
    exact h.2

/-- Unfolding `noDD` one step: no double hyphen on a cons means the tail is
clean and the head does not pair a hyphen with the tail's head. -/
theorem noDD_cons_iff (x : Char) (l : List Char) :
    noDD (x :: l) = true ↔
      (noDD l = true ∧ ∀ y, l.head? = some y → (x == '-' && y == '-') = false) := by
  cases l with
  | nil => simp [noDD]
  | cons b t =>
    simp only [noDD, Bool.and_eq_true, List.head?_cons, Bool.not_eq_true']
    constructor
    · rintro ⟨h1, h2⟩
      refine ⟨h2, ?_⟩
      rintro y hy
      injection hy with hy
      rw [← hy]
      exact h1
    · rintro ⟨h1, h2⟩
      exact ⟨h2 b rfl, h1⟩

/-- Collapsing hyphen runs keeps the head character. -/
theorem head?_collapse : ∀ s : List Char,
    (collapseHyphens s).head? = s.head? := by
  intro s
  induction s with
  | nil => rfl
  | cons a l ih =>
    cases l with
    | nil => rfl
    | cons b t =>
      cases hab : (a == '-' && b == '-') with
      | true =>
        simp only [collapseHyphens, hab, if_true]
        rw [ih]
        simp only [Bool.and_eq_true, beq_iff_eq] at hab
        simp [hab.1, hab.2]
      | false =>
        simp [collapseHyphens, hab]

/-- The result of collapsing hyphen runs has no double hyphen. -/
theorem noDD_collapse : ∀ s : List Char, noDD (collapseHyphens s) = true := by
  intro s
  induction s with
  | nil => rfl
  | cons a l ih =>
    cases l with
    | nil => rfl
    | cons b t =>
      cases hab : (a == '-' && b == '-') with
      | true =>
        simpa [collapseHyphens, hab] using ih
      | false =>
        simp only [collapseHyphens, hab, Bool.false_eq_true, if_false]
        rw [noDD_cons_iff]
        refine ⟨ih, ?_⟩
        intro y hy
        rw [head?_collapse (b :: t), List.head?_cons] at hy
        injection hy with hy
        rw [← hy]
        exact hab

/-- Collapsing hyphen runs only drops characters, so `all` is preserved. -/
theorem all_collapse (P : Char → Bool) : ∀ s : List Char,
    s.all P = true → (collapseHyphens s).all P = true := by
  intro s
  induction s with
  | nil => intro _; rfl
  | cons a l ih =>
    intro h
    simp only [List.all_cons, Bool.and_eq_true] at h
    cases l with
    | nil => simpa [collapseHyphens] using h.1
    | cons b t =>
      cases hab : (a == '-' && b == '-') with
      | true =>
        simpa [collapseHyphens, hab] using ih h.2
      | false =>
        simp only [collapseHyphens, hab, Bool.false_eq_true, if_false,
          List.all_cons, Bool.and_eq_true]
        exact ⟨h.1, ih h.2⟩

/-- The head surviving `dropWhile p` fails `p`. -/
theorem hd_dropWhile (p : Char → Bool) : ∀ (l : List Char) (c : Char),
    (l.dropWhile p).head? = some c → p c = false := by
  intro l
  induction l with
  | nil => intro c h; simp at h
  | cons a t ih =>
    intro c h
    cases hpa : p a with
    | true =>
      rw [List.dropWhile_cons_of_pos (by rw [hpa])] at h
      exact ih c h
    | false =>
      rw [List.dropWhile_cons_of_neg (by rw [hpa]; simp)] at h
      simp only [List.head?_cons] at h
      injection h with h
      rw [← h]
      exact hpa

/-- `dropWhile` preserves `all`. -/
theorem all_dropWhile (P p : Char → Bool) : ∀ l : List Char,
    l.all P = true → (l.dropWhile p).all P = true := by
  intro l
  induction l with
  | nil => intro _; rfl
  | cons a t ih =>
    intro h
    simp only [List.all_cons, Bool.and_eq_true] at h
    cases hpa : p a with
    | true =>
      rw [List.dropWhile_cons_of_pos (by rw [hpa])]
      exact ih h.2
    | false =>
      rw [List.dropWhile_cons_of_neg (by rw [hpa]; simp)]
      simp only [List.all_cons, Bool.and_eq_true]
      exact ⟨h.1, h.2⟩

/-- `dropWhile` yields a suffix, so no double hyphen is preserved. -/
theorem noDD_dropWhile (p : Char → Bool) : ∀ l : List Char,
    noDD l = true → noDD (l.dropWhile p) = true := by
  intro l
  induction l with
  | nil => intro _; rfl
  | cons a t ih =>
    intro h
    cases hpa : p a with
    | true =>
      rw [List.dropWhile_cons_of_pos (by rw [hpa])]
      exact ih (noDD_tail a t h)
    | false =>
      rw [List.dropWhile_cons_of_neg (by rw [hpa]; simp)]
      exact h

/-- `dropTrailing` preserves `all`. -/
theorem all_dropTrailing (P p : Char → Bool) : ∀ l : List Char,
    l.all P = true → (dropTrailing p l).all P = true := by
  intro l
  induction l with
  | nil => intro _; rfl
  | cons c rest ih =>
    intro h
    simp only [List.all_cons, Bool.and_eq_true] at h
    simp only [dropTrailing]
    cases hre : (dropTrailing p rest).isEmpty with
    | true =>
      simp only [if_true]
      cases hpc : p c with
      | true => simp
      | false => simpa using h.1
    | false =>
      simp only [Bool.false_eq_true, if_false, List.all_cons, Bool.and_eq_true]
      exact ⟨h.1, ih h.2⟩

/-- The head of `dropTrailing p l` is the head of `l` (or the result is
empty). -/
theorem head?_dropTrailing (p : Char → Bool) (l : List Char) :
    (dropTrailing p l).head? = none ∨ (dropTrailing p l).head? = l.head? := by
  cases l with
  | nil => exact Or.inl rfl
  | cons c rest =>
    simp only [dropTrailing]
    cases hre : (dropTrailing p rest).isEmpty with
    | true =>
      cases hpc : p c with
      | true => exact Or.inl (by simp)
      | false => exact Or.inr (by simp)
    | false => exact Or.inr (by simp)

/-- `dropTrailing` preserves no-double-hyphen. -/
theorem noDD_dropTrailing (p : Char → Bool) : ∀ l : List Char,
    noDD l = true → noDD (dropTrailing p l) = true := by
  intro l
  induction l with
  | nil => intro _; rfl
  | cons c rest ih =>
    intro h
    simp only [dropTrailing]
    cases hre : (dropTrailing p rest).isEmpty with
    | true =>
      cases hpc : p c with
      | true => simp [noDD]
      | false => simp [noDD]
    | false =>
      simp only [Bool.false_eq_true, if_false]
      rw [noDD_cons_iff]
      refine ⟨ih (noDD_tail c rest h), ?_⟩
      intro y hy
      rcases head?_dropTrailing p rest with hcase | hcase
      · rw [hcase] at hy
        exact absurd hy (by simp)
      · rw [hcase] at hy
        exact ((noDD_cons_iff c rest).mp h).2 y hy

/-- The last character surviving `dropTrailing p` fails `p`. -/
theorem getLast?_dropTrailing (p : Char → Bool) : ∀ (l : List Char) (c : Char),
    (dropTrailing p l).getLast? = some c → p c = false := by
  intro l
  induction l with
  | nil => intro c h; simp [dropTrailing] at h
  | cons c' rest ih =>
    intro c h
    simp only [dropTrailing] at h
    cases hre : (dropTrailing p rest).isEmpty with
    | true =>
      rw [hre] at h
      simp only [if_true] at h
      cases hpc : p c' with
      | true =>
        rw [hpc] at h
        simp at h
      | false =>
        rw [hpc] at h
        simp only [Bool.false_eq_true, if_false, List.getLast?_singleton] at h
        injection h with h
        rw [← h]
        exact hpc
    | false =>
      rw [hre] at h
      simp only [Bool.false_eq_true, if_false] at h
      cases hdt : dropTrailing p rest with
      | nil => rw [hdt] at hre; simp at hre
      | cons y ys =>
        rw [hdt] at h
        rw [List.getLast?_cons_cons] at h
        rw [← hdt] at h
        exact ih c h

/-- Unfolding `splitHyphen` on a leading hyphen. -/
theorem sp_cons_hyphen (rest : List Char) :
    splitHyphen ('-' :: rest) = [] :: splitHyphen rest := by
  simp [splitHyphen]

/-- Unfolding `splitHyphen` on a leading non-hyphen. -/
theorem sp_cons_other (c : Char) (rest : List Char) (hc : (c == '-') = false) :
    ∀ q qs, splitHyphen rest = q :: qs →
      splitHyphen (c :: rest) = (c :: q) :: qs := by
  intro q qs hqs
  have h1 : splitHyphen (c :: rest) =
      match splitHyphen rest with
      | [] => [[c]]
      | p :: ps => (c :: p) :: ps := by
    simp [splitHyphen, hc]
  rw [h1, hqs]

/-- A nonempty hyphen-clean word (no double hyphen, no hyphen at either
end) splits into nonempty groups only. `n` is a fuel bound on the length. -/
theorem parts_ne : ∀ (n : Nat) (w : List Char), w.length ≤ n → w ≠ [] →
    (∀ c, w.head? = some c → c ≠ '-') →
    (∀ c, w.getLast? = some c → c ≠ '-') →
    noDD w = true →
    ∀ p ∈ splitHyphen w, p ≠ [] := by
  intro n
  induction n with
  | zero =>
    intro w hlen hne
    cases w with
    | nil => exact absurd rfl hne
    | cons c rest => simp at hlen
  | succ n ih =>
    intro w hlen hne hh hl hdd p hp
    cases w with
    | nil => exact absurd rfl hne
    | cons c rest =>
      have hc : c ≠ '-' := hh c rfl
      have hc' : (c == '-') = false := by simp [hc]
      cases rest with
      | nil =>
        rw [sp_cons_other c [] hc' [] [] rfl] at hp
        simp only [List.mem_singleton] at hp
        subst hp
        simp
      | cons d rest' =>
        cases hd : (d == '-') with
        | false =>
          obtain ⟨q, qs, hqs⟩ := List.exists_cons_of_ne_nil (sp_ne_nil (d :: rest'))
          rw [sp_cons_other c (d :: rest') hc' q qs hqs] at hp
          rcases List.mem_cons.mp hp with rfl | hp2
          · simp
          · refine ih (d :: rest') (by simp only [List.length_cons] at hlen ⊢; omega)
              (by simp) ?_ ?_ (noDD_tail c _ hdd) p
              (by rw [hqs]; exact List.mem_cons_of_mem _ hp2)
            · intro y hy
              injection hy with hy
              subst hy
              simpa using hd
            · intro y hy
              exact hl y (by rwa [List.getLast?_cons_cons])
        | true =>
          have hd2 : d = '-' := by simpa using hd
          subst hd2
          cases rest' with
          | nil =>
            have h3 : ('-' : Char) ≠ '-' := hl '-' (by simp)
            exact absurd rfl h3
          | cons e rest2 =>
            have he : (e == '-') = false := by
              have h2 := noDD_tail c _ hdd
              rw [noDD_cons_iff] at h2
              have h4 := h2.2 e rfl
              simpa using h4
            rw [sp_cons_other c ('-' :: e :: rest2) hc' [] (splitHyphen (e :: rest2))
              (sp_cons_hyphen (e :: rest2))] at hp
            rcases List.mem_cons.mp hp with rfl | hp2
            · simp
            · refine ih (e :: rest2) (by simp only [List.length_cons] at hlen ⊢; omega)
                (by simp) ?_ ?_ (noDD_tail '-' _ (noDD_tail c _ hdd)) p hp2
              · intro y hy
                injection hy with hy
                subst hy
                simpa using he
              · intro y hy
                exact hl y (by rw [List.getLast?_cons_cons, List.getLast?_cons_cons]; exact hy)

/-- All chars of the mapped (`[^a-z0-9] → '-'`) list are `[a-z0-9]` or `-`. -/
theorem all_map_hyMap : ∀ x : List Char,
    (x.map hyMap).all (fun c => isLowerAlnum c || c == '-') = true := by
  intro x
  induction x with
  | nil => rfl
  | cons a t ih =>
    simp only [List.map_cons, List.all_cons, Bool.and_eq_true]
    refine ⟨?_, ih⟩
    unfold hyMap
    split
    · simp only [Bool.or_eq_true, beq_iff_eq]
      left
      assumption
    · simp

/-- The slug built on lines 134-136 is well formed: all chars in
`[a-z0-9-]`, no doubled hyphen, and no hyphen at either end. -/
theorem slug_wf (f : List Char) :
    (slugOfL f).all (fun c => isLowerAlnum c || c == '-') = true ∧
    noDD (slugOfL f) = true ∧
    (∀ c, (slugOfL f).head? = some c → c ≠ '-') ∧
    (∀ c, (slugOfL f).getLast? = some c → c ≠ '-') := by
  unfold slugOfL stripHy stripBoth
  refine ⟨?_, ?_, ?_, ?_⟩
  · exact all_dropTrailing _ _ _
      (all_dropWhile _ _ _ (all_collapse _ _ (all_map_hyMap _)))
  · exact noDD_dropTrailing _ _
      (noDD_dropWhile _ _ (noDD_collapse _))
  · intro c hc
    rcases head?_dropTrailing (fun c => c == '-')
        ((collapseHyphens ((lowerL (nameOfL f)).map hyMap)).dropWhile
          (fun c => c == '-')) with hcase | hcase
    · rw [hcase] at hc
      exact absurd hc (by simp)
    · rw [hcase] at hc
      have := hd_dropWhile (fun c => c == '-') _ c hc
      simpa using this
  · intro c hc
    have := getLast?_dropTrailing (fun c => c == '-') _ c hc
    simpa using this

/-- A `replace` pass whose pattern does not occur leaves the list unchanged. -/
theorem replaceAllAux_of_not_contains (old new : List Char) :
    ∀ (fuel : Nat) (s : List Char), s.length ≤ fuel →
      containsSub s old = false → replaceAllAux old new fuel s = s := by
  intro fuel
  induction fuel with
  | zero =>
    intro s hlen _
    cases s with
    | nil => rfl
    | cons c rest => simp at hlen
  | succ fuel ih =>
    intro s hlen hc
    cases s with
    | nil => rfl
    | cons c rest =>
      simp only [containsSub, Bool.or_eq_false_iff] at hc
      simp only [replaceAllAux, hc.1, Bool.false_eq_true, if_false]
      rw [ih rest (by simpa using Nat.le_of_succ_le_succ (by simpa using hlen)) hc.2]

/-- The `.mid`-removal pass keeps a trailing `i`: a `.mid` match is four
characters ending in `d`, so it can never consume the final `i`, which is
emitted last. -/
theorem replaceAllAux_concat_i :
    ∀ (fuel : Nat) (s t : List Char), s.length ≤ fuel → s = t ++ ['i'] →
      ∃ u, replaceAllAux ['.', 'm', 'i', 'd'] [] fuel s = u ++ ['i'] := by
  intro fuel
  induction fuel with
  | zero =>
    intro s t hlen hs
    subst hs
    simp at hlen
  | succ fuel ih =>
    intro s t hlen hs
    subst hs
    cases t with
    | nil =>
      refine ⟨[], ?_⟩
      simp [replaceAllAux, listStartsWith]
    | cons c t' =>
      simp only [List.cons_append] at hlen ⊢
      by_cases hm : listStartsWith (c :: (t' ++ ['i'])) ['.', 'm', 'i', 'd'] = true
      · cases t' with
        | nil => simp [listStartsWith] at hm
        | cons a t2 =>
          cases t2 with
          | nil => simp [listStartsWith] at hm
          | cons b t3 =>
            cases t3 with
            | nil => simp [listStartsWith] at hm
            | cons d t4 =>
              simp only [List.cons_append] at hm
              have hlen' : (t4 ++ ['i'] : List Char).length ≤ fuel := by
                simp only [List.length_append, List.length_cons] at hlen ⊢
                omega
              obtain ⟨u, hu⟩ := ih (t4 ++ ['i']) t4 hlen' rfl
              refine ⟨u, ?_⟩
              simpa [replaceAllAux, hm] using hu
      · have hlen' : (t' ++ ['i'] : List Char).length ≤ fuel := by
          simp only [List.length_append, List.length_cons] at hlen ⊢
          omega
        obtain ⟨u, hu⟩ := ih (t' ++ ['i']) t' hlen' rfl
        refine ⟨c :: u, ?_⟩
        simp [replaceAllAux, hm, hu]

/-- Fall-through to the last keyword rule: when none of rules 1-21 hits and
the name contains `beach` and `town` but neither `violin` nor `flute`, the
artist becomes `Traditional` and the title keeps its incoming value (the
rule has no default title in that case). -/
theorem applyRules_beach_town (l t a : List Char)
    (hE : earlierRuleHit l = false)
    (hb : containsSub l "beach".data = true)
    (ht : containsSub l "town".data = true)
    (hv : containsSub l "violin".data = false)
    (hf : containsSub l "flute".data = false) :
    applyRules l t a = (t, "Traditional".data) := by
  simp only [earlierRuleHit, Bool.or_eq_false_iff] at hE
  simp [applyRules, hb, ht, hv, hf, hE]

/-- C1: the spec example claims filename `random_song.midi` yields title
`random_song`, artist `Unknown` and id `random-song-midi`; evaluating the
code at that input shows `replace('.mid', '')` also eats the `.mid` inside
`.midi`, so the code actually produces title `random_songi` and id
`random-songi-midi` (artist `Unknown` is as claimed). -/
theorem claim_C1_code_eval :
    (extract_song_info_from_filename "random_song.midi").title = "random_songi" ∧
    (extract_song_info_from_filename "random_song.midi").artist = "Unknown" ∧
    (mkSong "random_song.midi").id = "random-songi-midi" ∧
    (extract_song_info_from_filename "random_song.midi").title ≠ "random_song" ∧
    (mkSong "random_song.midi").id ≠ "random-song-midi" := by
  decide

/-- C2 counterexample: filename `!.mid` ends in `.mid`, yet its derived id
is `-midi`, which does not match `^[a-z0-9]+(-[a-z0-9]+)*-midi$` — the slug
is empty because no character survives as an alphanumeric. -/
theorem claim_C2_counterexample :
    strEndsWith "!.mid" ".mid" = true ∧
    (mkSong "!.mid").id = "-midi" ∧
    matchesIdRegex (mkSong "!.mid").id = false ∧
    slugOfL "!.mid".data = [] := by
  decide

/-- C2 (amended): for every filename ending in `.mid` or `.midi` whose
derived slug (extension removal, lowercasing, `[^a-z0-9]` to `-`, collapse
`-+`, strip `-`) is nonempty, the catalog builder's id matches
`^[a-z0-9]+(-[a-z0-9]+)*-midi$`; when the slug is empty the id is the
non-matching `-midi`. -/
theorem claim_C2_amended (f : String)
    (h1 : strEndsWith f ".mid" = true ∨ strEndsWith f ".midi" = true)
    (h2 : slugOfL f.data ≠ []) :
    matchesIdRegex (mkSong f).id = true := by
  have hid : (mkSong f).id = ⟨songIdL f.data⟩ := by
    simp only [mkSong]
    split <;> rfl
  rw [hid]
  obtain ⟨hall, hdd, hh, hl⟩ := slug_wf f.data
  have hsplit : splitHyphen (songIdL f.data) =
      splitHyphen (slugOfL f.data) ++ [['m', 'i', 'd', 'i']] := by
    unfold songIdL
    have hms : ("-midi".data : List Char) = '-' :: "midi".data := rfl
    rw [hms, sp_append]
    rfl
  unfold matchesIdRegex
  simp only [Bool.and_eq_true, decide_eq_true_eq, List.all_eq_true]
  rw [hsplit]
  refine ⟨⟨?_, ?_⟩, ?_⟩
  · have hpos : 0 < (splitHyphen (slugOfL f.data)).length :=
      List.length_pos.mpr (sp_ne_nil _)
    simp only [List.length_append, List.length_singleton]
    omega
  · intro p hp
    rcases List.mem_append.mp hp with hp | hp
    · have hne := parts_ne (slugOfL f.data).length (slugOfL f.data) le_rfl h2
        hh hl hdd p hp
      have hal := parts_alnum (slugOfL f.data) hall p hp
      refine ⟨?_, ?_⟩
      · cases p with
        | nil => exact absurd rfl hne
        | cons x xs => simp
      · intro y hy
        exact List.all_eq_true.mp hal y hy
    · simp only [List.mem_singleton] at hp
      subst hp
      refine ⟨by decide, ?_⟩
      intro y hy
      simp only [List.mem_cons, List.not_mem_nil, or_false] at hy
      rcases hy with rfl | rfl | rfl | rfl <;> decide
  · rw [List.getLast?_concat]

/-- Witness for C2 at filename `Song?.mid` (slug `song`, id `song-midi`). -/
theorem claim_C2_witness : matchesIdRegex (mkSong "Song?.mid").id = true :=
  claim_C2_amended "Song?.mid" (Or.inl (by decide)) (by decide)

/-- C3: filename `Metallica - Master of Puppets.mid` is classified as title
`Master of Puppets`, artist `Metallica`, and the catalog builder derives id
`metallica-master-of-puppets-midi`. -/
theorem claim_C3 :
    (extract_song_info_from_filename "Metallica - Master of Puppets.mid").title =
      "Master of Puppets" ∧
    (extract_song_info_from_filename "Metallica - Master of Puppets.mid").artist =
      "Metallica" ∧
    (mkSong "Metallica - Master of Puppets.mid").id =
      "metallica-master-of-puppets-midi" := by
  decide

/-- C4: keyword rules are first-match-wins in the fixed chain order: any
filename whose lowercase form contains both `twinkle` and `beethoven` is
resolved by the `twinkle` rule (the first in the chain) to title
`Twinkle Twinkle Little Star` and artist `Traditional`; the later
`beethoven` rule (title `Moonlight Sonata`, artist `Beethoven`) is not
applied. -/
theorem claim_C4 (f : String)
    (h1 : containsSub (lowerL f.data) "twinkle".data = true)
    (h2 : containsSub (lowerL f.data) "beethoven".data = true) :
    (extract_song_info_from_filename f).title = "Twinkle Twinkle Little Star" ∧
    (extract_song_info_from_filename f).artist = "Traditional" := by
  have ht : containsSub (lowerL (nameOfL f.data)) "twinkle".data = true :=
    containsSub_lower_nameOf _ (by decide) (by decide) (by decide) (by decide)
      (by decide) _ h1
  have h' := applyRules_twinkle (lowerL (nameOfL f.data))
    (splitStage (nameOfL f.data)).1 (splitStage (nameOfL f.data)).2 ht
  constructor
  · simp only [extract_song_info_from_filename]
    rw [h']
  · simp only [extract_song_info_from_filename]
    rw [h']

/-- Witness for C4 at filename `twinkle beethoven.mid`. -/
theorem claim_C4_witness :
    (extract_song_info_from_filename "twinkle beethoven.mid").title =
      "Twinkle Twinkle Little Star" ∧
    (extract_song_info_from_filename "twinkle beethoven.mid").artist =
      "Traditional" :=
  claim_C4 "twinkle beethoven.mid" (by decide) (by decide)

/-- C5: whenever `main` writes a catalog, its `midiSongs` and `allSongs`
arrays are equal in content and order. -/
theorem claim_C5 (listing : Option (List String)) (cat : Catalog)
    (h : mainOutput listing = some cat) : cat.midiSongs = cat.allSongs := by
  cases listing with
  | none => simp [mainOutput, generate_midi_songs_json] at h
  | some files =>
    simp only [mainOutput, generate_midi_songs_json] at h
    split at h
    · exact absurd h (by simp)
    · injection h with h2
      subst h2
      rfl

/-- Witness for C5 at the one-file listing `["a.mid"]`. -/
theorem claim_C5_witness :
    (Catalog.mk [mkSong "a.mid"] [mkSong "a.mid"]).midiSongs =
    (Catalog.mk [mkSong "a.mid"] [mkSong "a.mid"]).allSongs :=
  claim_C5 (some ["a.mid"]) (Catalog.mk [mkSong "a.mid"] [mkSong "a.mid"]) rfl

/-- C6: with the `midi` directory absent (`none` listing) or containing no
`.mid`/`.midi` file (`some []`), the run writes no output file and returns
normally: `mainOutput` is `none` (the early `return`s of lines 120-122 and
175-177). -/
theorem claim_C6 :
    mainOutput none = none ∧
    mainOutput (some []) = none ∧
    generate_midi_songs_json none = none := by
  decide

/-- C7: the classifier is total and deterministic: it is a pure total Lean
function (one value per input string), and every result is a full record
with `difficulties = ["easy"]` and `overallDifficulty = 5`. -/
theorem claim_C7 (filename : String) :
    ∃ t a, extract_song_info_from_filename filename =
      { title := t, artist := a, difficulties := ["easy"], overallDifficulty := 5 } :=
  ⟨_, _, rfl⟩

/-- C9 counterexample: filename `beach town.mid` satisfies every premise of
the claim (lowercase form contains `beach` and `town`, neither `violin` nor
`flute`, and no earlier keyword rule matches), and the classifier does set
artist `Traditional` — but the title is not the unmodified filename
`beach town.mid` (the extension was stripped: the title is `beach town`). -/
theorem claim_C9_counterexample :
    containsSub (lowerL "beach town.mid".data) "beach".data = true ∧
    containsSub (lowerL "beach town.mid".data) "town".data = true ∧
    containsSub (lowerL "beach town.mid".data) "violin".data = false ∧
    containsSub (lowerL "beach town.mid".data) "flute".data = false ∧
    earlierRuleHit (lowerL "beach town.mid".data) = false ∧
    (extract_song_info_from_filename "beach town.mid").artist = "Traditional" ∧
    (extract_song_info_from_filename "beach town.mid").title ≠ "beach town.mid" := by
  decide

/-- C9 (amended): for every filename whose lowercased extension-stripped
name contains both `beach` and `town` but neither `violin` nor `flute` and
satisfies no earlier keyword rule, the classifier sets artist `Traditional`
while the title keeps its pre-rule value — the extension-stripped name, or
the split-derived part when a `" - "`/`" -"` separator is present — not the
unmodified filename. -/
theorem claim_C9_amended (f : String)
    (hE : earlierRuleHit (lowerL (nameOfL f.data)) = false)
    (hb : containsSub (lowerL (nameOfL f.data)) "beach".data = true)
    (ht : containsSub (lowerL (nameOfL f.data)) "town".data = true)
    (hv : containsSub (lowerL (nameOfL f.data)) "violin".data = false)
    (hf : containsSub (lowerL (nameOfL f.data)) "flute".data = false) :
    (extract_song_info_from_filename f).artist = "Traditional" ∧
    (extract_song_info_from_filename f).title = ⟨(splitStage (nameOfL f.data)).1⟩ := by
  have h' := applyRules_beach_town (lowerL (nameOfL f.data))
    (splitStage (nameOfL f.data)).1 (splitStage (nameOfL f.data)).2 hE hb ht hv hf
  constructor
  · simp only [extract_song_info_from_filename]
    rw [h']
  · simp only [extract_song_info_from_filename]
    rw [h']

/-- Witness for C9 at filename `beach town.mid`. -/
theorem claim_C9_witness :
    (extract_song_info_from_filename "beach town.mid").artist = "Traditional" ∧
    (extract_song_info_from_filename "beach town.mid").title =
      ⟨(splitStage (nameOfL "beach town.mid".data)).1⟩ :=
  claim_C9_amended "beach town.mid" (by decide) (by decide) (by decide) (by decide)
    (by decide)

/-- C10 counterexample: for filename `.mi.midd.midi` (which ends in
`.midi`), the `.mid`-removal pass leaves `.midi` (a seam-created occurrence:
removing `.mid` from `.mi.midd` glues `.mi` and `d`), so the subsequent
`.midi` removal does match, the stripped name is empty and no trailing `i`
remains. -/
theorem claim_C10_counterexample :
    ".mi.midd.midi".data = ".mi.midd".data ++ ('.' :: 'm' :: 'i' :: 'd' :: 'i' :: []) ∧
    replaceAllL ".mid".data [] ".mi.midd.midi".data = ".midi".data ∧
    nameOfL ".mi.midd.midi".data = [] ∧
    (nameOfL ".mi.midd.midi".data).getLast? ≠ some 'i' := by
  decide

/-- C10 (amended): the `.mid` replacement removes every occurrence of
`.mid` present in the filename in one left-to-right pass (interior ones
included, e.g. `a.midb.mid` strips to `ab`), and the `.mid`-removal pass
always keeps a trailing `i` when the filename ends in `.midi`; the
subsequent `.midi` removal can match seam-created occurrences, but whenever
it finds nothing (the typical case) the stripped name — hence the default
title — ends in `i`, as in `song.midi` → name `songi`, id `songi-midi`. -/
theorem claim_C10_amended (f : String)
    (h1 : ∃ t, f.data = t ++ ('.' :: 'm' :: 'i' :: 'd' :: 'i' :: []))
    (h2 : containsSub (replaceAllL ".mid".data [] f.data) ".midi".data = false) :
    (∃ u, nameOfL f.data = u ++ ['i']) ∧
    nameOfL "song.midi".data = "songi".data ∧
    (mkSong "song.midi").id = "songi-midi" ∧
    nameOfL "a.midb.mid".data = "ab".data := by
  refine ⟨?_, by decide, by decide, by decide⟩
  obtain ⟨t, hts⟩ := h1
  have h5 : f.data = (t ++ ('.' :: 'm' :: 'i' :: 'd' :: [])) ++ ['i'] := by
    simpa [List.append_assoc] using hts
  obtain ⟨u, hu⟩ :=
    replaceAllAux_concat_i f.data.length f.data (t ++ ('.' :: 'm' :: 'i' :: 'd' :: []))
      le_rfl h5
  refine ⟨u, ?_⟩
  unfold nameOfL
  have hid : replaceAllL ".midi".data [] (replaceAllL ".mid".data [] f.data) =
      replaceAllL ".mid".data [] f.data := by
    unfold replaceAllL
    exact replaceAllAux_of_not_contains ".midi".data [] _ _ le_rfl h2
  rw [hid]
  exact hu

/-- Witness for C10 at filename `song.midi`. -/
theorem claim_C10_witness :
    (∃ u, nameOfL "song.midi".data = u ++ ['i']) ∧
    nameOfL "song.midi".data = "songi".data ∧
    (mkSong "song.midi").id = "songi-midi" ∧
    nameOfL "a.midb.mid".data = "ab".data :=
  claim_C10_amended "song.midi" ⟨"song".data, by decide⟩ (by decide)

/-- C8: every emitted record's `soundFont` is the single fixed URL: the
keyword-conditional overwrite of lines 161-162 assigns the same URL as the
default of line 148, so the branch is a no-op. -/
theorem claim_C8 (filename : String) :
    (mkSong filename).soundFont =
      "https://porter-smith.github.io/rhythm-master-files/soundfonts/gzdoom.sf2" := by
  simp only [mkSong]
  split <;> rfl
